import Mathlib

/-!
Verification of the search/filter/sort query compiler of `trustify`
(`common/src/db/query.rs`), shallowly embedded over `List Char` strings.

The embedding follows the source file closely:
* `encode` / `decode` are the escape-sentinel passes (`\&` ↦ `'\x07'`,
  `\|` ↦ `'\x08'`, and back to the literal characters);
* `matchFilterRegex` models the anchored regex
  `^(?<field>[[:word:]]+)(?<op>=|!=|~|!~|>=|>|<=|<)(?<value>.*)$`
  (leftmost-first alternation, ASCII `[[:word:]]`, `.` not matching `'\n'`);
* `Filter.parse` / `SortSpec.parse` are `Filter::parse` / `Sort::parse`;
* `Filter.into_condition` is the `IntoCondition` impl, with Rust panics
  (`unreachable!()` and `Value::unwrap::<String>` on a non-string) made
  explicit as `Except Panic`;
* external crate functions (RFC 3339 / date / human-time / number parsing
  from `time`, `human_date_parser` and `std`) are abstracted as the fields
  of an `ExtParse` record, since they are not code of this repository.
-/

namespace TrustifyQuery

/-- Strings are modelled as lists of characters. -/
abbrev Str := List Char

/-! ## Character-level string helpers

`Rust`'s `str::replace(pat, to)` scans left to right replacing
non-overlapping occurrences.  The source only ever replaces a two-character
pattern by one character (`encode`), or one character by a string
(`decode`, pattern escaping in `into_condition`), so two specialized
helpers suffice. -/

/-- Replace every (non-overlapping, leftmost-first) occurrence of the
two-character pattern `[a, b]` by the single character `c`. -/
def replaceSeq (a b c : Char) : Str → Str
  | [] => []
  | [x] => [x]
  | x :: y :: rest =>
    if x = a ∧ y = b then c :: replaceSeq a b c rest
    else x :: replaceSeq a b c (y :: rest)

/-- Replace every occurrence of the character `a` by the string `r`. -/
def replaceCharStr (a : Char) (r : Str) : Str → Str
  | [] => []
  | x :: xs => if x = a then r ++ replaceCharStr a r xs else x :: replaceCharStr a r xs

/-- Model of `str::contains(char)`. -/
def containsChar (c : Char) : Str → Bool
  | [] => false
  | x :: xs => x = c || containsChar c xs

/-- Model of `str::split(char)`: always returns at least one piece; `n` separators
yield `n + 1` pieces (so `"".split(c)` is `[""]`, `"a&&b".split('&')` is
`["a", "", "b"]`). -/
def splitOnChar (c : Char) : Str → List Str
  | [] => [[]]
  | x :: xs =>
    if x = c then [] :: splitOnChar c xs
    else
      match splitOnChar c xs with
      | [] => [[x]]
      | p :: ps => (x :: p) :: ps

/-- Model of `Iterator::flat_map` + `collect` over lists. -/
def flat_map (f : α → List β) : List α → List β
  | [] => []
  | a :: as => f a ++ flat_map f as

/-- Model of `Iterator::collect::<Result<Vec<_>, _>>()`: map a fallible function
over a list, short-circuiting at the first error. -/
def collectResults (f : α → Except ε β) : List α → Except ε (List β)
  | [] => .ok []
  | a :: as =>
    match f a with
    | .error e => .error e
    | .ok b =>
      match collectResults f as with
      | .error e => .error e
      | .ok bs => .ok (b :: bs)

/-! ## Encoder / decoder (`encode` / `decode` in the source)

`encode` protects escaped delimiters before any splitting:
`s.replace(r"\&", "\x07").replace(r"\|", "\x08")`.
`decode` restores the literal characters on every leaf token:
`s.replace('\x07', "&").replace('\x08', "|")`. -/

def encode (s : Str) : Str :=
  replaceSeq '\\' '|' '\x08' (replaceSeq '\\' '&' '\x07' s)

def decode (s : Str) : Str :=
  replaceCharStr '\x08' ['|'] (replaceCharStr '\x07' ['&'] s)

/-! ## Data model (`Operator`, `ColumnType`, `Value`, `Columns`, `Error`) -/

/-- The source's `enum Error { SearchSyntax(String) }`. -/
inductive Error where
  | SearchSyntax (msg : Str)
deriving DecidableEq, Repr

/-- The source's `enum Operator` (eight comparison/pattern operators
plus the two logical connectives). -/
inductive Operator where
  | Equal | NotEqual | Like | NotLike
  | GreaterThan | GreaterThanOrEqual | LessThan | LessThanOrEqual
  | And | Or
deriving DecidableEq, Repr

/-- The source's `impl FromStr for Operator`. -/
def Operator.from_str (s : Str) : Except Error Operator :=
  if s = ['='] then .ok .Equal
  else if s = ['!', '='] then .ok .NotEqual
  else if s = ['~'] then .ok .Like
  else if s = ['!', '~'] then .ok .NotLike
  else if s = ['>'] then .ok .GreaterThan
  else if s = ['>', '='] then .ok .GreaterThanOrEqual
  else if s = ['<'] then .ok .LessThan
  else if s = ['<', '='] then .ok .LessThanOrEqual
  else if s = ['|'] then .ok .Or
  else if s = ['&'] then .ok .And
  else .error (.SearchSyntax ("Invalid operator: '".data ++ s ++ "'".data))

/-- The `sea_orm::ColumnType` cases distinguished by the source
(`envalue` matches `Integer`, `Decimal(_)`, `TimestampWithTimeZone`;
full-text search matches `String(_) | Text`); every other variant of
the sea_orm enum behaves like `Other`. -/
inductive ColumnType where
  | Integer
  | Decimal (p : Option (Nat × Nat))
  | TimestampWithTimeZone
  | String (len : Option Nat)
  | Text
  | Other
deriving DecidableEq, Repr

/-! Opaque carriers for values produced by external crates (`time`,
`chrono` via `human_date_parser`, `f64` from `std`).  The claims never
inspect these payloads, only route them, so a wrapped string stands in
for each foreign type. -/

structure OffsetDateTime where
  repr : Str
deriving DecidableEq, Repr

structure TimeDate where
  repr : Str
deriving DecidableEq, Repr

structure NaiveDateTime where
  repr : Str
deriving DecidableEq, Repr

structure NaiveDate where
  repr : Str
deriving DecidableEq, Repr

structure NaiveTime where
  repr : Str
deriving DecidableEq, Repr

structure F64 where
  repr : Str
deriving DecidableEq, Repr

/-- The external crate type `human_date_parser::ParseResult`. -/
inductive ParseResult where
  | DateTime (dt : NaiveDateTime)
  | Date (d : NaiveDate)
  | Time (t : NaiveTime)
deriving DecidableEq, Repr

/-- The `sea_orm::Value` variants reachable from `envalue` and the
full-text branch (`.into()` conversions from the parsed payloads). -/
inductive Value where
  | str (s : Str)
  | int (i : Int)
  | float (f : F64)
  | timeDateTimeWithTimeZone (t : OffsetDateTime)
  | timeDate (d : TimeDate)
  | chronoDateTime (dt : NaiveDateTime)
  | chronoDate (d : NaiveDate)
  | chronoTime (t : NaiveTime)
deriving DecidableEq, Repr

/-- The external parsing functions called by `envalue`:
`str::parse::<i32>`, `str::parse::<f64>`,
`OffsetDateTime::parse(_, &Rfc3339)`,
`Date::parse(_, "[year]-[month]-[day]")` and
`human_date_parser::from_human_time`.  They are library code, not code of
this repository, so the embedding abstracts them as record fields. -/
structure ExtParse where
  parse_i32 : Str → Option Int
  parse_f64 : Str → Option F64
  parse_rfc3339 : Str → Option OffsetDateTime
  parse_date_ymd : Str → Option TimeDate
  from_human_time : Str → Option ParseResult

/-- The source's `fn envalue(s, ct)`: coerce a decoded value string to the declared
column type.  The inner `err` helper formats the external error's
`Display`; the embedding keeps the `"conversion error"` prefix and
abstracts the foreign message. -/
def envalue (P : ExtParse) (s : Str) (ct : ColumnType) : Except Error Value :=
  match ct with
  | .Integer =>
    match P.parse_i32 s with
    | some i => .ok (.int i)
    | none => .error (.SearchSyntax "conversion error".data)
  | .Decimal _ =>
    match P.parse_f64 s with
    | some f => .ok (.float f)
    | none => .error (.SearchSyntax "conversion error".data)
  | .TimestampWithTimeZone =>
    .ok (match P.parse_rfc3339 s with
      | some odt => .timeDateTimeWithTimeZone odt
      | none =>
        match P.parse_date_ymd s with
        | some d => .timeDate d
        | none =>
          match P.from_human_time s with
          | some (.DateTime dt) => .chronoDateTime dt
          | some (.Date d) => .chronoDate d
          | some (.Time t) => .chronoTime t
          | none => .str s)
  | _ => .ok (.str s)

/-- Model of `sea_query::ColumnRef`, reduced to the unqualified column name: the
source's `for_field` compares only `name.to_string()` across the
`Column`/`TableColumn`/`SchemaTableColumn` variants. -/
abbrev ColumnRef := Str

/-- The source's `struct Columns`: the schema registry, an ordered list of
`(ColumnRef, ColumnDef)` pairs; only the column type of a `ColumnDef`
is ever consulted (`get_column_type`), so the embedding stores it
directly. -/
structure Columns where
  columns : List (ColumnRef × ColumnType)
deriving DecidableEq, Repr

/-- The source's `Columns::for_field`: first column whose (unqualified) name equals
`field`, by exact string match. -/
def Columns.for_field (self : Columns) (field : Str) : Option (ColumnRef × ColumnType) :=
  self.columns.find? (fun c => c.1 = field)

/-! ## The filter regex

`^(?<field>[[:word:]]+)(?<op>=|!=|~|!~|>=|>|<=|<)(?<value>.*)$` matched
with the Rust `regex` crate's leftmost-first semantics:
* `[[:word:]]` is the ASCII class `[0-9A-Za-z_]`; since no operator
  token starts with a word character, `field` is exactly the maximal
  nonempty word-character prefix;
* the alternation tries the operator tokens in written order, so `>=`
  wins over `>` and `<=` over `<`;
* `.` does not match `'\n'` and `$` anchors at the end of the haystack,
  so a match requires the remaining `value` to contain no newline. -/

def isWordChar (c : Char) : Bool :=
  c.isAlphanum || c = '_'

def opTokens : List Str :=
  [['='], ['!', '='], ['~'], ['!', '~'], ['>', '='], ['>'], ['<', '='], ['<']]

/-- Does `p` occur at the start of `l`? -/
def startsWith : Str → Str → Bool
  | [], _ => true
  | _ :: _, [] => false
  | p :: ps, x :: xs => p = x && startsWith ps xs

/-- First operator token (in the regex's alternation order) that occurs
at the current position, together with the rest of the string. -/
def matchOp : List Str → Str → Option (Str × Str)
  | [], _ => none
  | t :: ts, rest =>
    if startsWith t rest then some (t, rest.drop t.length)
    else matchOp ts rest

/-- Result of `filter.captures(&encoded)`: the `field`, `op` and `value`
capture groups, or `none` when the regex does not match. -/
def matchFilterRegex (s : Str) : Option (Str × Str × Str) :=
  let field := s.takeWhile isWordChar
  let rest := s.dropWhile isWordChar
  if field.isEmpty then none
  else
    match matchOp opTokens rest with
    | none => none
    | some (op, value) =>
      if containsChar '\n' value then none else some (field, op, value)

/-! ## The filter tree and `Filter::parse` -/

/-- The source's `struct Filter { operands: Operand, operator: Operator }` with
`enum Operand { Simple(ColumnRef, Value), Composite(Vec<Filter>) }`,
flattened into a single inductive: `Simple col v op` is
`Filter { operands: Operand::Simple(col, v), operator: op }` and
`Composite fs op` is `Filter { operands: Operand::Composite(fs), operator: op }`. -/
inductive Filter where
  | Simple (col : ColumnRef) (v : Value) (operator : Operator)
  | Composite (operands : List Filter) (operator : Operator)

/-- One parse of an `&`-free fragment: branches 2 (field comparison) and
3 (full-text fallback) of `Filter::parse`, applied to the fragment's
encoding.  `Filter.parse` below dispatches here both at top level and
for every `&`-split piece; `parse_amp_recursion` proves that this
two-level layout satisfies the source's recursive equation (the
recursive call `Filter::parse(e)` on an `&`-free piece `e` re-encodes
`e` — a no-op — finds no `&`, and lands in these two branches). -/
def Filter.parseClause (P : ExtParse) (columns : Columns) (s : Str) : Except Error Filter :=
  let encoded := encode s
  match matchFilterRegex encoded with
  | some (field, op, value) =>
    -- We have a filter: {field}{op}{value}
    match columns.for_field field with
    | none => .error (.SearchSyntax
        ("Invalid field name for filter: '".data ++ field ++ "'".data))
    | some (col_ref, col_def) =>
      match Operator.from_str op with
      | .error e => .error e
      | .ok operator =>
        match collectResults (fun a => envalue P (decode a) col_def) (splitOnChar '|' value) with
        | .error e => .error e
        | .ok vs =>
          .ok (.Composite
            (vs.map (fun v => .Simple col_ref v operator))
            (match operator with
             | .NotLike | .NotEqual => .And
             | _ => .Or))
  | none =>
    -- We have a full-text search query
    .ok (.Composite
      (flat_map
        (fun a => columns.columns.filterMap
          (fun c =>
            match c.2 with
            | .String _ | .Text => some (.Simple c.1 (.str (decode a)) .Like)
            | _ => none))
        (splitOnChar '|' encoded))
      .Or)

/-- The source's `Filter::parse(s, columns)`. -/
def Filter.parse (P : ExtParse) (columns : Columns) (s : Str) : Except Error Filter :=
  let encoded := encode s
  if containsChar '&' encoded then
    -- We have a collection of filters and/or queries
    match collectResults (fun e => Filter.parseClause P columns e) (splitOnChar '&' encoded) with
    | .error e => .error e
    | .ok fs => .ok (.Composite fs .And)
  else
    Filter.parseClause P columns s

/-! ## `Sort::parse` -/

/-- The external type `sea_orm::Order` (sort direction). -/
inductive Order where
  | Asc | Desc
deriving DecidableEq, Repr

/-- The source's `struct Sort { field, order }` (named `SortSpec`: `Sort` is a Lean
keyword). -/
structure SortSpec where
  field : ColumnRef
  order : Order
deriving DecidableEq, Repr

/-- ASCII lower-casing of a string, one character at a time, modelling
`str::to_lowercase` on the ASCII inputs the claims are about. -/
def toLowerStr (s : Str) : Str :=
  s.map Char.toLower

/-- The source's `Sort::parse(s, columns)`: lower-case the whole token, split on `:`,
accept `[field]`, `[field, "asc"]` or `[field, "desc"]`, then resolve
the field in the registry. -/
def SortSpec.parse (s : Str) (columns : Columns) : Except Error SortSpec :=
  let t := toLowerStr s
  match
    (match splitOnChar ':' t with
     | [f, o] =>
       if o = "asc".data then some (f, Order.Asc)
       else if o = "desc".data then some (f, Order.Desc)
       else none
     | [f] => some (f, Order.Asc)
     | _ => none)
  with
  | none => .error (.SearchSyntax ("Invalid sort: '".data ++ t ++ "'".data))
  | some (f, ord) =>
    match columns.for_field f with
    | none => .error (.SearchSyntax ("Invalid field name for sort: '".data ++ f ++ "'".data))
    | some c => .ok ⟨c.1, ord⟩

/-! ## Predicate lowering (`impl IntoCondition for Filter`) -/

/-- Model of `sea_query::BinOper`, restricted to the comparison operators emitted
by `into_condition`. -/
inductive BinOper where
  | Equal | NotEqual | GreaterThan | GreaterThanOrEqual | SmallerThan | SmallerThanOrEqual
deriving DecidableEq, Repr

/-- The `sea_query::Condition` / `SimpleExpr` tree built by
`into_condition`: binary comparisons, case-insensitive pattern matches
(`ilike` / `not_ilike`), and the two n-ary connectives
(`Condition::all()` / `Condition::any()` with children folded in via
`add`, in list order). -/
inductive Condition where
  | binary (col : ColumnRef) (op : BinOper) (v : Value)
  | ilike (col : ColumnRef) (pattern : Str)
  | not_ilike (col : ColumnRef) (pattern : Str)
  | all (cs : List Condition)
  | any (cs : List Condition)

/-- Rust panics reachable from `into_condition`: the two `unreachable!()`
arms (a `Simple` leaf carrying `And`/`Or`, a `Composite` carrying a
comparison operator), and `Value::unwrap::<String>` applied to a
non-string value in the `Like`/`NotLike` arm. -/
inductive Panic where
  | Unreachable
  | UnwrapValue
deriving DecidableEq, Repr

/-- The `Like`/`NotLike` pattern: escape literal `%` and `_` in the
value, then wrap as `%value%`
(`format!("%{}%", v.unwrap::<String>().replace('%', r"\%").replace('_', r"\_"))`). -/
def likePattern (v : Str) : Str :=
  '%' :: (replaceCharStr '_' ['\\', '_'] (replaceCharStr '%' ['\\', '%'] v)) ++ ['%']

mutual

/-- The source's `Filter::into_condition`, with panics explicit. -/
def Filter.into_condition : Filter → Except Panic Condition
  | .Simple col v operator =>
    match operator with
    | .Equal => .ok (.binary col .Equal v)
    | .NotEqual => .ok (.binary col .NotEqual v)
    | .GreaterThan => .ok (.binary col .GreaterThan v)
    | .GreaterThanOrEqual => .ok (.binary col .GreaterThanOrEqual v)
    | .LessThan => .ok (.binary col .SmallerThan v)
    | .LessThanOrEqual => .ok (.binary col .SmallerThanOrEqual v)
    | .Like =>
      match v with
      | .str s => .ok (.ilike col (likePattern s))
      | _ => .error .UnwrapValue
    | .NotLike =>
      match v with
      | .str s => .ok (.not_ilike col (likePattern s))
      | _ => .error .UnwrapValue
    | _ => .error .Unreachable
  | .Composite v operator =>
    match operator with
    | .And =>
      match intoConditionList v with
      | .error e => .error e
      | .ok cs => .ok (.all cs)
    | .Or =>
      match intoConditionList v with
      | .error e => .error e
      | .ok cs => .ok (.any cs)
    | _ => .error .Unreachable

/-- The `fold` over a `Composite`'s children (each `add` lowers one
child; a panic in any child aborts the whole fold). -/
def intoConditionList : List Filter → Except Panic (List Condition)
  | [] => .ok []
  | f :: fs =>
    match f.into_condition with
    | .error e => .error e
    | .ok c =>
      match intoConditionList fs with
      | .error e => .error e
      | .ok cs => .ok (c :: cs)

end

mutual

/-- Truth-value semantics of a lowered condition, relative to an
interpretation `ρ` of binary comparisons and `ι` of case-insensitive
pattern matches against some fixed row: `all` is conjunction (identity
`true`), `any` is disjunction (identity `false`), `not_ilike` is the
negation of the corresponding `ilike`. -/
def Condition.eval (ρ : ColumnRef → BinOper → Value → Bool) (ι : ColumnRef → Str → Bool) :
    Condition → Bool
  | .binary col op v => ρ col op v
  | .ilike col p => ι col p
  | .not_ilike col p => !(ι col p)
  | .all cs => evalList ρ ι cs
  | .any cs => evalAnyList ρ ι cs

/-- Conjunctive fold of `Condition::all` children. -/
def evalList (ρ : ColumnRef → BinOper → Value → Bool) (ι : ColumnRef → Str → Bool) :
    List Condition → Bool
  | [] => true
  | c :: cs => Condition.eval ρ ι c && evalList ρ ι cs

/-- Disjunctive fold of `Condition::any` children. -/
def evalAnyList (ρ : ColumnRef → BinOper → Value → Bool) (ι : ColumnRef → Str → Bool) :
    List Condition → Bool
  | [] => false
  | c :: cs => Condition.eval ρ ι c || evalAnyList ρ ι cs

end

/-! ## Structural invariant (claim C9's well-formedness) -/

/-- Is the operator one of the two logical connectives? -/
def Operator.is_logical : Operator → Bool
  | .And | .Or => true
  | _ => false

/-- Is the operator one of the eight comparison/pattern operators? -/
def Operator.is_comparison : Operator → Bool
  | .And | .Or => false
  | _ => true

mutual

/-- The structural invariant of parsed filter trees: every `Composite`
carries a logical operator, every `Simple` leaf a comparison operator. -/
def Filter.wellFormed : Filter → Bool
  | .Simple _ _ operator => operator.is_comparison
  | .Composite operands operator => operator.is_logical && wellFormedList operands

def wellFormedList : List Filter → Bool
  | [] => true
  | f :: fs => f.wellFormed && wellFormedList fs

end

/-! ## Concrete test fixtures

The entity used by the source file's own test module:
`advisory` with columns `id: i32` (primary key), `location: String`,
`title: String`, `published: Option<OffsetDateTime>`, in declaration
order. -/

def advisoryColumns : Columns :=
  ⟨[("id".data, .Integer),
    ("location".data, .String none),
    ("title".data, .String none),
    ("published".data, .TimestampWithTimeZone)]⟩

/-- A trivial external-parser record: every foreign parser fails, so
timestamp values fall through to the raw-string fallback and numeric
coercion errors out.  Claims touching only textual columns are
insensitive to this choice. -/
def P0 : ExtParse :=
  ⟨fun _ => none, fun _ => none, fun _ => none, fun _ => none, fun _ => none⟩

-- sanity checks against the source's own test expectations
example :
    Filter.parseClause P0 advisoryColumns "location=foo".data =
      .ok (.Composite [.Simple "location".data (.str "foo".data) .Equal] .Or) := by rfl

example :
    Filter.parse P0 advisoryColumns "location!=a|b|c".data =
      .ok (.Composite
        [.Simple "location".data (.str "a".data) .NotEqual,
         .Simple "location".data (.str "b".data) .NotEqual,
         .Simple "location".data (.str "c".data) .NotEqual] .And) := by rfl

example :
    Filter.parse P0 advisoryColumns "location=foo|\\&\\|".data =
      .ok (.Composite
        [.Simple "location".data (.str "foo".data) .Equal,
         .Simple "location".data (.str "&|".data) .Equal] .Or) := by rfl

example :
    SortSpec.parse "Location:Desc".data advisoryColumns = .ok ⟨"location".data, .Desc⟩ := by rfl

example :
    Filter.parse P0 advisoryColumns "foo".data =
      .ok (.Composite
        [.Simple "location".data (.str "foo".data) .Like,
         .Simple "title".data (.str "foo".data) .Like] .Or) := by rfl

-- mirrors the source test `where_clause("here&location!~there|hereford")`
example :
    Filter.parse P0 advisoryColumns "here&location!~there|hereford".data =
      .ok (.Composite
        [.Composite
          [.Simple "location".data (.str "here".data) .Like,
           .Simple "title".data (.str "here".data) .Like] .Or,
         .Composite
          [.Simple "location".data (.str "there".data) .NotLike,
           .Simple "location".data (.str "hereford".data) .NotLike] .And] .And) := by rfl

-- mirrors the escaped-delimiter part of the source test on `m\&m's&location=f\&oo&id=13`
example :
    Filter.parse P0 advisoryColumns "m\\&m's&location=f\\&oo".data =
      .ok (.Composite
        [.Composite
          [.Simple "location".data (.str "m&m's".data) .Like,
           .Simple "title".data (.str "m&m's".data) .Like] .Or,
         .Composite [.Simple "location".data (.str "f&oo".data) .Equal] .Or] .And) := by rfl

-- mirrors `where_clause("published>2023-11-03")`: the bare-date parser fires
-- only after RFC 3339 fails
example :
    Filter.parse
      ⟨fun _ => none, fun _ => none, fun _ => none,
       fun s => if s = "2023-11-03".data then some ⟨"2023-11-03".data⟩ else none,
       fun _ => none⟩
      advisoryColumns "published>2023-11-03".data =
        .ok (.Composite
          [.Simple "published".data (.timeDate ⟨"2023-11-03".data⟩) .GreaterThan] .Or) := by rfl

/-! ## Supporting lemmas: `collectResults` -/

theorem collectResults_ok_mem {f : α → Except ε β} {l : List α} {bs : List β}
    (h : collectResults f l = .ok bs) : ∀ a ∈ l, ∃ b, f a = .ok b := by
  induction l generalizing bs with
  | nil => intro a ha; simp at ha
  | cons x xs ih =>
    intro a ha
    simp only [collectResults] at h
    rcases hx : f x with e | b
    · rw [hx] at h; exact absurd h (by simp)
    · rw [hx] at h
      rcases hxs : collectResults f xs with e | bs' <;> rw [hxs] at h
      · exact absurd h (by simp)
      · rcases List.mem_cons.mp ha with rfl | ha'
        · exact ⟨b, hx⟩
        · exact ih hxs a ha'

theorem collectResults_error_mem {f : α → Except ε β} {l : List α} {e : ε}
    (h : collectResults f l = .error e) : ∃ a ∈ l, f a = .error e := by
  induction l with
  | nil => simp [collectResults] at h
  | cons x xs ih =>
    simp only [collectResults] at h
    rcases hx : f x with e' | b <;> rw [hx] at h
    · cases h; exact ⟨x, List.mem_cons_self x xs, hx⟩
    · rcases hxs : collectResults f xs with e' | bs <;> rw [hxs] at h
      · cases h
        rcases ih hxs with ⟨a, ha, hfa⟩
        exact ⟨a, List.mem_cons_of_mem _ ha, hfa⟩
      · exact absurd h (by simp)

theorem collectResults_error_of_mem {f : α → Except ε β} {l : List α} {a : α} {e : ε}
    (ha : a ∈ l) (hfa : f a = .error e) : ∃ e', collectResults f l = .error e' := by
  induction l with
  | nil => simp at ha
  | cons x xs ih =>
    rcases List.mem_cons.mp ha with rfl | ha'
    · exact ⟨e, by simp [collectResults, hfa]⟩
    · rcases hx : f x with e' | b
      · exact ⟨e', by simp [collectResults, hx]⟩
      · rcases ih ha' with ⟨e', he'⟩
        exact ⟨e', by simp [collectResults, hx, he']⟩

theorem collectResults_congr {f g : α → Except ε β} {l : List α}
    (h : ∀ a ∈ l, f a = g a) : collectResults f l = collectResults g l := by
  induction l with
  | nil => rfl
  | cons x xs ih =>
    simp only [collectResults, h x (List.mem_cons_self x xs),
      ih (fun a ha => h a (List.mem_cons_of_mem _ ha))]

/-! ## Supporting lemmas: `containsChar` and `splitOnChar` -/

theorem containsChar_eq_false_iff {c : Char} {l : Str} :
    containsChar c l = false ↔ c ∉ l := by
  induction l with
  | nil => simp [containsChar]
  | cons x xs ih =>
    simp only [containsChar, Bool.or_eq_false_iff, ih, List.mem_cons, decide_eq_false_iff_not]
    constructor
    · rintro ⟨h1, h2⟩ (rfl | h)
      · exact h1 rfl
      · exact h2 h
    · intro h
      exact ⟨fun he => h (Or.inl he.symm), fun he => h (Or.inr he)⟩

theorem splitOnChar_ne_nil (c : Char) (l : Str) : splitOnChar c l ≠ [] := by
  induction l with
  | nil => simp [splitOnChar]
  | cons x xs ih =>
    simp only [splitOnChar]
    split
    · simp
    · split
      · simp
      · simp

theorem mem_splitOnChar_not_contains (c : Char) (l : Str) :
    ∀ p ∈ splitOnChar c l, containsChar c p = false := by
  induction l with
  | nil => intro p hp; simp [splitOnChar] at hp; simp [hp, containsChar]
  | cons x xs ih =>
    intro p hp
    simp only [splitOnChar] at hp
    split at hp
    · rcases List.mem_cons.mp hp with h | h
      · simp [h, containsChar]
      · exact ih p h
    · rename_i hx
      rcases h : splitOnChar c xs with _ | ⟨q, qs⟩
      · exact absurd h (splitOnChar_ne_nil c xs)
      · rw [h] at hp
        rcases List.mem_cons.mp hp with h2 | h2
        · subst h2
          have hq := ih q (by rw [h]; exact List.mem_cons_self _ _)
          simp [containsChar, hx, hq]
        · exact ih p (by rw [h]; exact List.mem_cons_of_mem _ h2)

theorem splitOnChar_of_not_contains {c : Char} {l : Str}
    (h : containsChar c l = false) : splitOnChar c l = [l] := by
  induction l with
  | nil => rfl
  | cons x xs ih =>
    simp only [containsChar, Bool.or_eq_false_iff, decide_eq_false_iff_not] at h
    simp only [splitOnChar, if_neg h.1, ih h.2]

theorem splitOnChar_eq_single {c : Char} {l a : Str}
    (h : splitOnChar c l = [a]) : l = a := by
  induction l generalizing a with
  | nil => simp only [splitOnChar, List.cons.injEq, and_true] at h; exact h
  | cons x xs ih =>
    simp only [splitOnChar] at h
    split at h
    · rw [List.cons.injEq] at h
      exact absurd h.2 (splitOnChar_ne_nil c xs)
    · split at h
      · rename_i heq
        exact absurd heq (splitOnChar_ne_nil c xs)
      · rename_i p ps heq
        rw [List.cons.injEq] at h
        obtain ⟨rfl, rfl⟩ := h
        rw [ih (a := p) heq]

theorem splitOnChar_eq_pair {c : Char} {l a b : Str}
    (h : splitOnChar c l = [a, b]) : l = a ++ c :: b := by
  induction l generalizing a with
  | nil => simp [splitOnChar] at h
  | cons x xs ih =>
    simp only [splitOnChar] at h
    split at h
    · rename_i hx
      rw [List.cons.injEq] at h
      obtain ⟨rfl, h2⟩ := h
      rw [splitOnChar_eq_single h2, hx]
      rfl
    · split at h
      · rename_i heq
        exact absurd heq (splitOnChar_ne_nil c xs)
      · rename_i p ps heq
        rw [List.cons.injEq] at h
        obtain ⟨rfl, rfl⟩ := h
        rw [ih (a := p) heq]
        rfl

theorem splitOnChar_single_iff {c : Char} {l a : Str} :
    splitOnChar c l = [a] ↔ l = a ∧ containsChar c a = false := by
  constructor
  · intro h
    exact ⟨splitOnChar_eq_single h,
      mem_splitOnChar_not_contains c l a (by rw [h]; exact List.mem_cons_self _ _)⟩
  · rintro ⟨rfl, h⟩
    exact splitOnChar_of_not_contains h

theorem splitOnChar_pair_iff {c : Char} {l a b : Str} :
    splitOnChar c l = [a, b] ↔
      l = a ++ c :: b ∧ containsChar c a = false ∧ containsChar c b = false := by
  constructor
  · intro h
    exact ⟨splitOnChar_eq_pair h,
      mem_splitOnChar_not_contains c l a (by rw [h]; simp),
      mem_splitOnChar_not_contains c l b (by rw [h]; simp)⟩
  · rintro ⟨rfl, ha, hb⟩
    induction a with
    | nil => simp [splitOnChar, splitOnChar_of_not_contains hb]
    | cons x xs ih =>
      simp only [containsChar, Bool.or_eq_false_iff, decide_eq_false_iff_not] at ha
      simp only [List.cons_append, splitOnChar, if_neg ha.1, List.append_eq, ih ha.2]

/-! ## Supporting lemmas: `encode` and the `&`-recursion of `Filter::parse` -/

theorem mem_replaceSeq {a b c x : Char} {l : Str}
    (h : x ∈ replaceSeq a b c l) : x ∈ l ∨ x = c := by
  induction l using replaceSeq.induct a b c with
  | case1 => simp [replaceSeq] at h
  | case2 y => simp only [replaceSeq] at h; exact Or.inl h
  | case3 y z rest hp ih =>
    simp only [replaceSeq, if_pos hp] at h
    rcases List.mem_cons.mp h with rfl | h2
    · exact Or.inr rfl
    · rcases ih h2 with h3 | h3
      · exact Or.inl (List.mem_cons_of_mem _ (List.mem_cons_of_mem _ h3))
      · exact Or.inr h3
  | case4 y z rest hp ih =>
    simp only [replaceSeq, if_neg hp] at h
    rcases List.mem_cons.mp h with rfl | h2
    · exact Or.inl (List.mem_cons_self _ _)
    · rcases ih h2 with h3 | h3
      · exact Or.inl (List.mem_cons_of_mem _ h3)
      · exact Or.inr h3

theorem not_mem_replaceSeq {a b c x : Char} {l : Str}
    (hl : x ∉ l) (hc : x ≠ c) : x ∉ replaceSeq a b c l := by
  intro h
  rcases mem_replaceSeq h with h2 | h2
  · exact hl h2
  · exact hc h2

/-- The pass `encode` never introduces a `&` (its replacement characters are the
two sentinels), so an `&`-free string stays `&`-free. -/
theorem encode_amp_free {s : Str} (h : containsChar '&' s = false) :
    containsChar '&' (encode s) = false := by
  rw [containsChar_eq_false_iff] at h ⊢
  exact not_mem_replaceSeq (not_mem_replaceSeq h (by decide)) (by decide)

/-- On an `&`-free input (such as any `&`-split piece), `Filter::parse`
is exactly one pass of the field-comparison / full-text branches. -/
theorem parse_on_amp_free {P : ExtParse} {columns : Columns} {s : Str}
    (h : containsChar '&' (encode s) = false) :
    Filter.parse P columns s = Filter.parseClause P columns s := by
  simp only [Filter.parse, h, Bool.false_eq_true, if_false]

/-- The source's recursive equation for the conjunction branch: when the
encoded input contains `&`, `Filter::parse` is the `And`-composite of
recursive `Filter::parse` calls on the `&`-split pieces.  (Each piece is
`&`-free, so the recursion terminates after this one unfolding; this is
the fact that justifies the two-level `parse`/`parseClause` layout of
the embedding.) -/
theorem parse_amp_recursion {P : ExtParse} {columns : Columns} {s : Str}
    (h : containsChar '&' (encode s) = true) :
    Filter.parse P columns s =
      match collectResults (fun e => Filter.parse P columns e)
          (splitOnChar '&' (encode s)) with
      | .error e => .error e
      | .ok fs => .ok (.Composite fs .And) := by
  have hcongr : collectResults (fun e => Filter.parse P columns e) (splitOnChar '&' (encode s)) =
      collectResults (fun e => Filter.parseClause P columns e) (splitOnChar '&' (encode s)) := by
    apply collectResults_congr
    intro e he
    exact parse_on_amp_free (encode_amp_free (mem_splitOnChar_not_contains '&' (encode s) e he))
  rw [hcongr]
  simp only [Filter.parse, h, if_true]

/-! ## Supporting lemmas: the decode/encode round trip (claim C3) -/

/-- What the round trip `decode ∘ encode` actually computes on sentinel-free
input: each escape sequence `\&` / `\|` is replaced by its literal
delimiter character (the escape is consumed).  Stated from the spec's
intent for comparison with the code's `decode ∘ encode`. -/
def unescape (s : Str) : Str :=
  replaceSeq '\\' '|' '|' (replaceSeq '\\' '&' '&' s)

theorem replaceCharStr_cons (a : Char) (r : Str) (x : Char) (xs : Str) :
    replaceCharStr a r (x :: xs) =
      (if x = a then r else [x]) ++ replaceCharStr a r xs := by
  by_cases h : x = a <;> simp [replaceCharStr, h]

/-- Un-doing one sentinel pass: if the sentinel `c` does not occur in
`l`, replacing `[esc, d]` by `c` and then `c` by `d` is the same as
replacing `[esc, d]` by `d` directly. -/
theorem replaceCharStr_replaceSeq {esc d c : Char} {l : Str}
    (hc : c ∉ l) :
    replaceCharStr c [d] (replaceSeq esc d c l) = replaceSeq esc d d l := by
  induction l using replaceSeq.induct esc d c with
  | case1 => rfl
  | case2 x =>
    have hx : x ≠ c := fun h => hc (h ▸ List.mem_cons_self _ _)
    simp [replaceSeq, replaceCharStr, hx]
  | case3 x y rest hp ih =>
    have hrest : c ∉ rest := fun h => hc (List.mem_cons_of_mem _ (List.mem_cons_of_mem _ h))
    simp only [replaceSeq, if_pos hp, replaceCharStr_cons, if_pos rfl]
    rw [ih hrest]
    rfl
  | case4 x y rest hp ih =>
    have hx : x ≠ c := fun h => hc (h ▸ List.mem_cons_self _ _)
    have htail : c ∉ y :: rest := fun h => hc (List.mem_cons_of_mem _ h)
    simp only [replaceSeq, if_neg hp, replaceCharStr_cons, if_neg hx]
    rw [ih htail]
    rfl

/-- The single-character decode pass for one sentinel commutes with the
`replaceSeq` pass for the *other* escape sequence, because that pass
neither consumes nor produces the sentinel being decoded. -/
theorem replaceCharStr_comm_replaceSeq {esc d c other r : Char} {l : Str}
    (hce : c ≠ esc) (hcd : c ≠ d) (hcr : c ≠ r) (hoe : other ≠ esc) (hod : other ≠ d) :
    replaceCharStr c [other] (replaceSeq esc d r l) =
      replaceSeq esc d r (replaceCharStr c [other] l) := by
  induction l using replaceSeq.induct esc d r with
  | case1 => rfl
  | case2 x =>
    by_cases hx : x = c
    · simp [replaceSeq, replaceCharStr, hx]
    · simp [replaceSeq, replaceCharStr, hx]
  | case3 x y rest hp ih =>
    have hxc : x ≠ c := fun h => hce (h.symm.trans hp.1)
    have hyc : y ≠ c := fun h => hcd (h.symm.trans hp.2)
    have hrc : r ≠ c := fun h => hcr h.symm
    calc replaceCharStr c [other] (replaceSeq esc d r (x :: y :: rest))
        = r :: replaceCharStr c [other] (replaceSeq esc d r rest) := by
          rw [show replaceSeq esc d r (x :: y :: rest) = r :: replaceSeq esc d r rest from by
            simp [replaceSeq, hp]]
          simp [replaceCharStr, hrc]
      _ = r :: replaceSeq esc d r (replaceCharStr c [other] rest) := by rw [ih]
      _ = replaceSeq esc d r (replaceCharStr c [other] (x :: y :: rest)) := by
          rw [show replaceCharStr c [other] (x :: y :: rest) =
              x :: y :: replaceCharStr c [other] rest from by
            simp [replaceCharStr, hxc, hyc]]
          simp [replaceSeq, hp]
  | case4 x y rest hp ih =>
    have hkey : replaceCharStr c [other] (y :: rest) =
        (if y = c then other else y) :: replaceCharStr c [other] rest := by
      by_cases hy : y = c <;> simp [replaceCharStr, hy]
    have hpat : ¬((if x = c then other else x) = esc ∧ (if y = c then other else y) = d) := by
      intro hq
      by_cases hx : x = c
      · rw [if_pos hx] at hq; exact hoe hq.1
      · rw [if_neg hx] at hq
        by_cases hy : y = c
        · rw [if_pos hy] at hq; exact hod hq.2
        · rw [if_neg hy] at hq; exact hp hq
    have hheadx : replaceCharStr c [other] (x :: y :: rest) =
        (if x = c then other else x) :: replaceCharStr c [other] (y :: rest) := by
      by_cases hx : x = c <;> simp [replaceCharStr, hx]
    calc replaceCharStr c [other] (replaceSeq esc d r (x :: y :: rest))
        = (if x = c then other else x) ::
            replaceCharStr c [other] (replaceSeq esc d r (y :: rest)) := by
          rw [show replaceSeq esc d r (x :: y :: rest) =
              x :: replaceSeq esc d r (y :: rest) from by simp [replaceSeq, hp]]
          by_cases hx : x = c <;> simp [replaceCharStr, hx]
      _ = (if x = c then other else x) ::
            replaceSeq esc d r (replaceCharStr c [other] (y :: rest)) := by rw [ih]
      _ = replaceSeq esc d r (replaceCharStr c [other] (x :: y :: rest)) := by
          rw [hheadx, hkey]
          simp only [replaceSeq]
          rw [if_neg hpat]

/-- The decode/encode round trip on sentinel-free input: it rewrites
every escape sequence `\&` / `\|` to the bare delimiter — it does *not*
reproduce the original escaped input. -/
theorem decode_encode {s : Str}
    (h7 : '\x07' ∉ s) (h8 : '\x08' ∉ s) :
    decode (encode s) = unescape s := by
  unfold decode encode unescape
  rw [replaceCharStr_comm_replaceSeq (by decide) (by decide) (by decide) (by decide) (by decide)]
  rw [replaceCharStr_replaceSeq h7]
  rw [replaceCharStr_replaceSeq]
  exact not_mem_replaceSeq h8 (by decide)

/-! ## Supporting lemmas: operator tokens and the regex -/

/-- An operator-starting character (the first character of some token of
the regex's `op` alternation). -/
def isOpChar (c : Char) : Bool :=
  c = '=' || c = '!' || c = '~' || c = '>' || c = '<'

theorem matchOp_mem {ts : List Str} {rest op v : Str}
    (h : matchOp ts rest = some (op, v)) : op ∈ ts := by
  induction ts with
  | nil => simp [matchOp] at h
  | cons t ts ih =>
    simp only [matchOp] at h
    split at h
    · cases h; exact List.mem_cons_self _ _
    · exact List.mem_cons_of_mem _ (ih h)

/-- Every token of the `op` alternation parses, via `Operator::from_str`,
to one of the eight comparison operators. -/
theorem opTokens_comparison :
    ∀ t ∈ opTokens, ∃ o, Operator.from_str t = .ok o ∧ o.is_comparison = true := by
  intro t ht
  simp only [opTokens, List.mem_cons, List.not_mem_nil, or_false] at ht
  rcases ht with rfl | rfl | rfl | rfl | rfl | rfl | rfl | rfl
  · exact ⟨.Equal, rfl, rfl⟩
  · exact ⟨.NotEqual, rfl, rfl⟩
  · exact ⟨.Like, rfl, rfl⟩
  · exact ⟨.NotLike, rfl, rfl⟩
  · exact ⟨.GreaterThanOrEqual, rfl, rfl⟩
  · exact ⟨.GreaterThan, rfl, rfl⟩
  · exact ⟨.LessThanOrEqual, rfl, rfl⟩
  · exact ⟨.LessThan, rfl, rfl⟩

theorem matchOp_none_of_head {x : Char} {r : Str}
    (h : isOpChar x = false) : matchOp opTokens (x :: r) = none := by
  simp only [isOpChar, Bool.or_eq_false_iff, decide_eq_false_iff_not] at h
  obtain ⟨⟨⟨⟨h1, h2⟩, h3⟩, h4⟩, h5⟩ := h
  have g1 : ¬('=' = x) := fun h => h1 h.symm
  have g2 : ¬('!' = x) := fun h => h2 h.symm
  have g3 : ¬('~' = x) := fun h => h3 h.symm
  have g4 : ¬('>' = x) := fun h => h4 h.symm
  have g5 : ¬('<' = x) := fun h => h5 h.symm
  simp [matchOp, opTokens, startsWith, g1, g2, g3, g4, g5]

/-- Word characters are never operator-starting characters. -/
theorem isWordChar_not_isOpChar {c : Char} (h : isWordChar c = true) :
    isOpChar c = false := by
  simp only [isWordChar, Bool.or_eq_true, decide_eq_true_eq] at h
  rcases h with h | rfl
  · simp only [Char.isAlphanum, Bool.or_eq_true, Char.isAlpha, Char.isUpper, Char.isLower,
      Char.isDigit, decide_eq_true_eq] at h
    simp only [isOpChar, Bool.or_eq_false_iff, decide_eq_false_iff_not]
    rcases h with (h | h) | h <;>
      refine ⟨⟨⟨⟨?_, ?_⟩, ?_⟩, ?_⟩, ?_⟩ <;> rintro rfl <;> exact absurd h (by decide)
  · decide

/-! ## Supporting lemmas: `flat_map`, `filterMap`, folds -/

theorem mem_flat_map {f : α → List β} {l : List α} {x : β} :
    x ∈ flat_map f l ↔ ∃ a ∈ l, x ∈ f a := by
  induction l with
  | nil => simp [flat_map]
  | cons a as ih => simp [flat_map, ih]

theorem flat_map_eq_nil {f : α → List β} {l : List α}
    (h : ∀ a ∈ l, f a = []) : flat_map f l = [] := by
  induction l with
  | nil => rfl
  | cons a as ih =>
    simp only [flat_map, h a (List.mem_cons_self a as),
      ih (fun a ha => h a (List.mem_cons_of_mem _ ha)), List.nil_append]

theorem length_filterMap_eq_length_filter {g : α → Option β} {p : α → Bool} {l : List α}
    (h : ∀ a ∈ l, (g a).isSome = p a) :
    (l.filterMap g).length = (l.filter p).length := by
  induction l with
  | nil => rfl
  | cons a as ih =>
    have ha := h a (List.mem_cons_self a as)
    have ih' := ih (fun a ha => h a (List.mem_cons_of_mem _ ha))
    rcases hg : g a with _ | b
    · rw [hg] at ha
      simp only [List.filterMap_cons, hg, List.filter_cons, ← ha, Option.isSome_none,
        Bool.false_eq_true, if_false, ih']
    · rw [hg] at ha
      simp only [List.filterMap_cons, hg, List.filter_cons, ← ha, Option.isSome_some,
        if_true, List.length_cons, ih']

/-! ## Supporting lemmas: well-formedness and lowering (claim C9) -/

theorem wellFormedList_mem {fs : List Filter} (h : wellFormedList fs = true) :
    ∀ f ∈ fs, f.wellFormed = true := by
  induction fs with
  | nil => intro f hf; simp at hf
  | cons g gs ih =>
    intro f hf
    simp only [wellFormedList, Bool.and_eq_true] at h
    rcases List.mem_cons.mp hf with rfl | hf'
    · exact h.1
    · exact ih h.2 f hf'

theorem wellFormedList_of_mem {fs : List Filter} (h : ∀ f ∈ fs, f.wellFormed = true) :
    wellFormedList fs = true := by
  induction fs with
  | nil => rfl
  | cons g gs ih =>
    simp only [wellFormedList, Bool.and_eq_true]
    exact ⟨h g (List.mem_cons_self g gs), ih (fun f hf => h f (List.mem_cons_of_mem _ hf))⟩

theorem intoConditionList_error_mem {fs : List Filter} {e : Panic}
    (h : intoConditionList fs = .error e) : ∃ f ∈ fs, f.into_condition = .error e := by
  induction fs with
  | nil => simp [intoConditionList] at h
  | cons g gs ih =>
    simp only [intoConditionList] at h
    rcases hg : g.into_condition with e' | c <;> rw [hg] at h
    · cases h; exact ⟨g, List.mem_cons_self g gs, hg⟩
    · rcases hgs : intoConditionList gs with e' | cs <;> rw [hgs] at h
      · cases h
        rcases ih hgs with ⟨f, hf, hfe⟩
        exact ⟨f, List.mem_cons_of_mem _ hf, hfe⟩
      · exact absurd h (by simp)

/-- A well-formed filter never reaches either `unreachable!()` arm of
`into_condition` (lowering may still panic on `Value::unwrap`, but only
with `UnwrapValue`). -/
theorem wellFormed_no_unreachable :
    ∀ f : Filter, f.wellFormed = true → f.into_condition ≠ .error .Unreachable := by
  suffices h : ∀ n, ∀ f : Filter, sizeOf f ≤ n → f.wellFormed = true →
      f.into_condition ≠ .error .Unreachable by
    intro f; exact h (sizeOf f) f le_rfl
  intro n
  induction n with
  | zero =>
    intro f hf
    cases f <;>
      simp only [Filter.Simple.sizeOf_spec, Filter.Composite.sizeOf_spec,
        Nat.le_zero] at hf <;> omega
  | succ n ih =>
    intro f hsize hwf
    cases f with
    | Simple col v operator =>
      cases operator with
      | Equal => intro hcon; simp [Filter.into_condition] at hcon
      | NotEqual => intro hcon; simp [Filter.into_condition] at hcon
      | GreaterThan => intro hcon; simp [Filter.into_condition] at hcon
      | GreaterThanOrEqual => intro hcon; simp [Filter.into_condition] at hcon
      | LessThan => intro hcon; simp [Filter.into_condition] at hcon
      | LessThanOrEqual => intro hcon; simp [Filter.into_condition] at hcon
      | Like => cases v <;> intro hcon <;> simp [Filter.into_condition] at hcon
      | NotLike => cases v <;> intro hcon <;> simp [Filter.into_condition] at hcon
      | And => simp [Filter.wellFormed, Operator.is_comparison] at hwf
      | Or => simp [Filter.wellFormed, Operator.is_comparison] at hwf
    | Composite fs operator =>
      simp only [Filter.wellFormed, Bool.and_eq_true] at hwf
      have hsub : ∀ f ∈ fs, f.into_condition ≠ .error .Unreachable := by
        intro g hg
        have h1 : sizeOf g < sizeOf fs := List.sizeOf_lt_of_mem hg
        have h2 : sizeOf (Filter.Composite fs operator) = 1 + sizeOf fs + sizeOf operator := by
          simp
        exact ih g (by omega) (wellFormedList_mem hwf.2 g hg)
      have hlist : intoConditionList fs ≠ .error .Unreachable := by
        intro hl
        rcases intoConditionList_error_mem hl with ⟨g, hg, hge⟩
        exact hsub g hg hge
      cases operator with
      | And =>
        rcases hl : intoConditionList fs with e | cs
        · simp only [Filter.into_condition, hl, ne_eq, Except.error.injEq]
          intro h
          exact hlist (h ▸ hl)
        · simp [Filter.into_condition, hl]
      | Or =>
        rcases hl : intoConditionList fs with e | cs
        · simp only [Filter.into_condition, hl, ne_eq, Except.error.injEq]
          intro h
          exact hlist (h ▸ hl)
        · simp [Filter.into_condition, hl]
      | Equal => exact absurd hwf.1 (by decide)
      | NotEqual => exact absurd hwf.1 (by decide)
      | Like => exact absurd hwf.1 (by decide)
      | NotLike => exact absurd hwf.1 (by decide)
      | GreaterThan => exact absurd hwf.1 (by decide)
      | GreaterThanOrEqual => exact absurd hwf.1 (by decide)
      | LessThan => exact absurd hwf.1 (by decide)
      | LessThanOrEqual => exact absurd hwf.1 (by decide)

theorem collectResults_ok_mem_out {f : α → Except ε β} {l : List α} {bs : List β}
    (h : collectResults f l = .ok bs) : ∀ b ∈ bs, ∃ a ∈ l, f a = .ok b := by
  induction l generalizing bs with
  | nil =>
    simp only [collectResults, Except.ok.injEq] at h
    subst h
    intro b hb
    simp at hb
  | cons x xs ih =>
    intro b hb
    simp only [collectResults] at h
    rcases hx : f x with e | b' <;> rw [hx] at h
    · exact absurd h (by simp)
    · rcases hxs : collectResults f xs with e | bs' <;> rw [hxs] at h
      · exact absurd h (by simp)
      · rw [Except.ok.injEq] at h
        subst h
        rcases List.mem_cons.mp hb with rfl | hb'
        · exact ⟨x, List.mem_cons_self x xs, hx⟩
        · rcases ih hxs b hb' with ⟨a, ha, hfa⟩
          exact ⟨a, List.mem_cons_of_mem _ ha, hfa⟩

theorem matchFilterRegex_op_mem {s field op value : Str}
    (h : matchFilterRegex s = some (field, op, value)) : op ∈ opTokens := by
  simp only [matchFilterRegex] at h
  split at h
  · exact absurd h (by simp)
  · split at h
    · exact absurd h (by simp)
    · rename_i op0 v0 heq
      split at h
      · exact absurd h (by simp)
      · rw [Option.some.injEq, Prod.mk.injEq, Prod.mk.injEq] at h
        obtain ⟨-, rfl, -⟩ := h
        exact matchOp_mem heq

theorem wellFormedList_map_simple {vs : List Value} {col : ColumnRef} {operator : Operator}
    (h : operator.is_comparison = true) :
    wellFormedList (vs.map (fun v => Filter.Simple col v operator)) = true := by
  induction vs with
  | nil => rfl
  | cons v vs ih => simp [wellFormedList, Filter.wellFormed, h, ih]

/-- Every filter tree built by `parseClause` (either non-`&` branch of
`Filter::parse`) satisfies the structural invariant. -/
theorem parseClause_wellFormed {P : ExtParse} {columns : Columns} {s : Str} {f : Filter}
    (h : Filter.parseClause P columns s = .ok f) : f.wellFormed = true := by
  simp only [Filter.parseClause] at h
  split at h
  · -- field-comparison branch
    rename_i field op value hm
    split at h
    · exact absurd h (by simp)
    · rename_i cr ct hff
      split at h
      · exact absurd h (by simp)
      · rename_i operator hop
        split at h
        · exact absurd h (by simp)
        · rename_i vs hvs
          rw [Except.ok.injEq] at h
          subst h
          rcases opTokens_comparison op (matchFilterRegex_op_mem hm) with ⟨o, ho, hoc⟩
          rw [hop, Except.ok.injEq] at ho
          subst ho
          simp only [Filter.wellFormed, Bool.and_eq_true]
          constructor
          · cases operator <;> rfl
          · exact wellFormedList_map_simple hoc
  · -- full-text branch
    rw [Except.ok.injEq] at h
    subst h
    simp only [Filter.wellFormed, Operator.is_logical, Bool.true_and]
    apply wellFormedList_of_mem
    intro g hg
    rcases mem_flat_map.mp hg with ⟨a, _, hga⟩
    rcases List.mem_filterMap.mp hga with ⟨c, _, hc⟩
    rcases hct : c.2 with _ | _ | _ | u | _ | _ <;> rw [hct] at hc <;>
      simp only [Option.some.injEq] at hc <;> first
        | (subst hc; rfl)
        | exact absurd hc (by simp)

/-- Every filter tree built by `Filter::parse` satisfies the structural
invariant. -/
theorem parse_wellFormed {P : ExtParse} {columns : Columns} {s : Str} {f : Filter}
    (h : Filter.parse P columns s = .ok f) : f.wellFormed = true := by
  simp only [Filter.parse] at h
  by_cases hamp : containsChar '&' (encode s) = true
  · rw [if_pos hamp] at h
    rcases hcr : collectResults (fun e => Filter.parseClause P columns e)
        (splitOnChar '&' (encode s)) with e | fs <;> rw [hcr] at h
    · exact absurd h (by simp)
    · rw [Except.ok.injEq] at h
      subst h
      simp only [Filter.wellFormed, Operator.is_logical, Bool.true_and]
      apply wellFormedList_of_mem
      intro g hg
      rcases collectResults_ok_mem_out hcr g hg with ⟨e, _, hpe⟩
      exact parseClause_wellFormed hpe
  · rw [if_neg hamp] at h
    exact parseClause_wellFormed h

/-! ## Supporting lemmas: fold identities for `Condition` evaluation -/

theorem foldl_and_evalList (ρ : ColumnRef → BinOper → Value → Bool)
    (ι : ColumnRef → Str → Bool) (cs : List Condition) (b : Bool) :
    cs.foldl (fun acc c => acc && c.eval ρ ι) b = (b && evalList ρ ι cs) := by
  induction cs generalizing b with
  | nil => exact (Bool.and_true b).symm
  | cons c cs ih =>
    rw [List.foldl_cons, ih,
      show evalList ρ ι (c :: cs) = (Condition.eval ρ ι c && evalList ρ ι cs) from rfl,
      Bool.and_assoc]

theorem foldl_or_evalAnyList (ρ : ColumnRef → BinOper → Value → Bool)
    (ι : ColumnRef → Str → Bool) (cs : List Condition) (b : Bool) :
    cs.foldl (fun acc c => acc || c.eval ρ ι) b = (b || evalAnyList ρ ι cs) := by
  induction cs generalizing b with
  | nil => exact (Bool.or_false b).symm
  | cons c cs ih =>
    rw [List.foldl_cons, ih,
      show evalAnyList ρ ι (c :: cs) = (Condition.eval ρ ι c || evalAnyList ρ ι cs) from rfl,
      Bool.or_assoc]

/-- Textual column types (those contributing full-text `Like` leaves). -/
def isTextual : ColumnType → Bool
  | .String _ | .Text => true
  | _ => false

/-! ## Branch-shape lemmas for `parseClause` -/

theorem parseClause_field_branch {P : ExtParse} {columns : Columns}
    {s field op value : Str} {cr : ColumnRef} {ct : ColumnType}
    {operator : Operator} {vs : List Value}
    (hm : matchFilterRegex (encode s) = some (field, op, value))
    (hff : columns.for_field field = some (cr, ct))
    (hop : Operator.from_str op = .ok operator)
    (hvs : collectResults (fun a => envalue P (decode a) ct) (splitOnChar '|' value) = .ok vs) :
    Filter.parseClause P columns s =
      .ok (.Composite (vs.map (fun v => .Simple cr v operator))
        (if operator = .NotEqual ∨ operator = .NotLike then .And else .Or)) := by
  simp only [Filter.parseClause, hm, hff, hop, hvs]
  cases operator <;> rfl

theorem parseClause_field_error {P : ExtParse} {columns : Columns}
    {s field op value : Str}
    (hm : matchFilterRegex (encode s) = some (field, op, value))
    (hff : columns.for_field field = none) :
    Filter.parseClause P columns s =
      .error (.SearchSyntax
        ("Invalid field name for filter: '".data ++ field ++ "'".data)) := by
  simp only [Filter.parseClause, hm, hff]

theorem parseClause_fulltext {P : ExtParse} {columns : Columns} {s : Str}
    (hm : matchFilterRegex (encode s) = none) :
    Filter.parseClause P columns s =
      .ok (.Composite
        (flat_map
          (fun a => columns.columns.filterMap
            (fun c =>
              match c.2 with
              | .String _ | .Text => some (.Simple c.1 (.str (decode a)) .Like)
              | _ => none))
          (splitOnChar '|' (encode s)))
        .Or) := by
  simp only [Filter.parseClause, hm]

/-! ## Regex-failure lemmas (claim C10) -/

theorem matchFilterRegex_none_of_field_empty {t : Str}
    (h : t.takeWhile isWordChar = []) : matchFilterRegex t = none := by
  simp [matchFilterRegex, h]

/-- If the segment of the input before the first operator-starting
character contains a non-word character, the operator alternation can
never match right after the word-character prefix. -/
theorem matchOp_none_of_nonword_segment {t : Str}
    (h : ∃ c ∈ t.takeWhile (fun c => isOpChar c = false), isWordChar c = false) :
    matchOp opTokens (t.dropWhile isWordChar) = none := by
  induction t with
  | nil => simp at h
  | cons x xs ih =>
    by_cases hw : isWordChar x = true
    · have hopx : isOpChar x = false := isWordChar_not_isOpChar hw
      rw [List.takeWhile_cons, if_pos (by simp [hopx])] at h
      rcases h with ⟨c, hc, hcw⟩
      rcases List.mem_cons.mp hc with rfl | hc'
      · exact absurd hw (by simp [hcw])
      · rw [List.dropWhile_cons, if_pos (by simp [hw])]
        exact ih ⟨c, hc', hcw⟩
    · have hw' : isWordChar x = false := by simpa using hw
      rw [List.dropWhile_cons, if_neg (by simp [hw'])]
      by_cases hopx : isOpChar x = true
      · rw [List.takeWhile_cons, if_neg (by simp [hopx])] at h
        simp at h
      · exact matchOp_none_of_head (by simpa using hopx)

/-- The claim's failure condition: an empty leading segment, or a
non-word character before the first operator character, makes the
anchored regex fail. -/
theorem matchFilterRegex_none_of_bad_segment {t : Str}
    (h : t.takeWhile (fun c => isOpChar c = false) = [] ∨
      ∃ c ∈ t.takeWhile (fun c => isOpChar c = false), isWordChar c = false) :
    matchFilterRegex t = none := by
  rcases h with h | h
  · cases t with
    | nil => rfl
    | cons x xs =>
      rw [List.takeWhile_cons] at h
      by_cases hopx : isOpChar x = false
      · rw [if_pos (by simp [hopx])] at h
        simp at h
      · have hx : isWordChar x = false := by
          by_cases hw : isWordChar x = true
          · exact absurd (isWordChar_not_isOpChar hw) hopx
          · simpa using hw
        exact matchFilterRegex_none_of_field_empty
          (by rw [List.takeWhile_cons, if_neg (by simp [hx])])
  · have hmo := matchOp_none_of_nonword_segment h
    simp only [matchFilterRegex, hmo]
    split <;> rfl

/-! ## Claim theorems -/

/-- C3 (counterexample): the claim `decode(encode(s)) == s` for strings
containing `\&` or `\|` escape sequences is false on the code: on the
two-character input `\&`, `encode` rewrites `\&` to the sentinel and
`decode` rewrites the sentinel to the bare `&`, so the round trip drops
the backslash. -/
theorem c3_roundtrip_counterexample :
    decode (encode "\\&".data) ≠ "\\&".data := by decide

/-- C3 (amended): on input free of the two sentinel bytes, the round
trip `decode ∘ encode` rewrites every `\&` / `\|` escape sequence to its
literal delimiter character (it un-escapes rather than reproducing the
input); and an escaped `&` or `|` inside a value is not treated as a
structural separator by the `&`/`|` splitting — it survives into the
parsed leaf value as a literal `&`/`|`. -/
theorem c3_escape_roundtrip_amended :
    (∀ s : Str, '\x07' ∉ s → '\x08' ∉ s → decode (encode s) = unescape s)
    ∧ unescape "\\&".data = "&".data
    ∧ unescape "\\|".data = "|".data
    ∧ Filter.parse P0 advisoryColumns "location=foo|\\&\\|".data =
        .ok (.Composite
          [.Simple "location".data (.str "foo".data) .Equal,
           .Simple "location".data (.str "&|".data) .Equal] .Or) :=
  ⟨fun _ h7 h8 => decode_encode h7 h8, by decide, by decide, rfl⟩

theorem c3_escape_roundtrip_amended_witness :
    decode (encode "a\\&b\\|c".data) = unescape "a\\&b\\|c".data :=
  c3_escape_roundtrip_amended.1 "a\\&b\\|c".data (by decide) (by decide)

/-- C5: coercing a value against a `TimestampWithTimeZone` column tries,
in order, (1) strict RFC 3339, (2) bare `YYYY-MM-DD` date, (3)
natural-language time (yielding a datetime, date or time); the first
success determines the typed value, and if all three fail the raw string
is kept — the timestamp branch of `envalue` never produces a
`SearchSyntax` error. -/
theorem c5_timestamp_coercion :
    (∀ (P : ExtParse) (s : Str), ∃ v, envalue P s .TimestampWithTimeZone = .ok v)
    ∧ (∀ (P : ExtParse) (s : Str) (t : OffsetDateTime),
        P.parse_rfc3339 s = some t →
        envalue P s .TimestampWithTimeZone = .ok (.timeDateTimeWithTimeZone t))
    ∧ (∀ (P : ExtParse) (s : Str) (d : TimeDate),
        P.parse_rfc3339 s = none → P.parse_date_ymd s = some d →
        envalue P s .TimestampWithTimeZone = .ok (.timeDate d))
    ∧ (∀ (P : ExtParse) (s : Str) (r : ParseResult),
        P.parse_rfc3339 s = none → P.parse_date_ymd s = none →
        P.from_human_time s = some r →
        envalue P s .TimestampWithTimeZone = .ok
          (match r with
           | .DateTime dt => .chronoDateTime dt
           | .Date d => .chronoDate d
           | .Time t => .chronoTime t))
    ∧ (∀ (P : ExtParse) (s : Str),
        P.parse_rfc3339 s = none → P.parse_date_ymd s = none →
        P.from_human_time s = none →
        envalue P s .TimestampWithTimeZone = .ok (.str s)) := by
  refine ⟨?_, ?_, ?_, ?_, ?_⟩
  · intro P s
    simp only [envalue]
    exact ⟨_, rfl⟩
  · intro P s t h1
    simp only [envalue, h1]
  · intro P s d h1 h2
    simp only [envalue, h1, h2]
  · intro P s r h1 h2 h3
    simp only [envalue, h1, h2, h3]
    cases r <;> rfl
  · intro P s h1 h2 h3
    simp only [envalue, h1, h2, h3]

theorem c5_timestamp_coercion_witness :
    envalue P0 "next tuesday".data .TimestampWithTimeZone = .ok (.str "next tuesday".data) :=
  c5_timestamp_coercion.2.2.2.2 P0 "next tuesday".data rfl rfl rfl

/-- C6: lowering a `Like`/`NotLike` leaf escapes every literal `%` and
`_` in the (string) value, wraps the escaped value as `%value%`, and
emits the case-insensitive `ILIKE` / `NOT ILIKE` pattern match; the
value `f_o%o` produces the pattern `%f\_o\%o%`, matching the literal
substring `f_o%o`. -/
theorem c6_like_pattern_escaping :
    (∀ (col : ColumnRef) (s : Str),
      Filter.into_condition (.Simple col (.str s) .Like) = .ok (.ilike col (likePattern s))
      ∧ Filter.into_condition (.Simple col (.str s) .NotLike) =
          .ok (.not_ilike col (likePattern s)))
    ∧ (∀ s : Str, likePattern s =
        '%' :: (replaceCharStr '_' ['\\', '_'] (replaceCharStr '%' ['\\', '%'] s)) ++ ['%'])
    ∧ likePattern "f_o%o".data = "%f\\_o\\%o%".data :=
  ⟨fun _ _ => ⟨rfl, rfl⟩, fun _ => rfl, by decide⟩

/-- C1: a successfully parsed `field op v1|v2|...|vn` clause lowers to
one leaf per alternative, each carrying the parsed operator, wrapped in
a `Composite` whose operator is `And` when the comparison operator is
`NotEqual` or `NotLike` and `Or` for every other operator; in
particular `location!=a|b|c` gives three `NotEqual` leaves joined by
`And`, and `location=a|b|c` three `Equal` leaves joined by `Or`. -/
theorem c1_alternation_asymmetry :
    (∀ (P : ExtParse) (columns : Columns) (s field op value : Str)
       (cr : ColumnRef) (ct : ColumnType) (operator : Operator) (vs : List Value),
      containsChar '&' (encode s) = false →
      matchFilterRegex (encode s) = some (field, op, value) →
      columns.for_field field = some (cr, ct) →
      Operator.from_str op = .ok operator →
      collectResults (fun a => envalue P (decode a) ct) (splitOnChar '|' value) = .ok vs →
      Filter.parse P columns s =
        .ok (.Composite (vs.map (fun v => .Simple cr v operator))
          (if operator = .NotEqual ∨ operator = .NotLike then .And else .Or)))
    ∧ Filter.parse P0 advisoryColumns "location!=a|b|c".data =
        .ok (.Composite
          [.Simple "location".data (.str "a".data) .NotEqual,
           .Simple "location".data (.str "b".data) .NotEqual,
           .Simple "location".data (.str "c".data) .NotEqual] .And)
    ∧ Filter.parse P0 advisoryColumns "location=a|b|c".data =
        .ok (.Composite
          [.Simple "location".data (.str "a".data) .Equal,
           .Simple "location".data (.str "b".data) .Equal,
           .Simple "location".data (.str "c".data) .Equal] .Or) := by
  refine ⟨?_, rfl, rfl⟩
  intro P columns s field op value cr ct operator vs hamp hm hff hop hvs
  rw [parse_on_amp_free hamp]
  exact parseClause_field_branch hm hff hop hvs

theorem c1_alternation_asymmetry_witness :
    Filter.parse P0 advisoryColumns "location!~x|y".data =
      .ok (.Composite
        [.Simple "location".data (.str "x".data) .NotLike,
         .Simple "location".data (.str "y".data) .NotLike] .And) :=
  c1_alternation_asymmetry.1 P0 advisoryColumns "location!~x|y".data
    "location".data "!~".data "x|y".data "location".data (.String none) .NotLike
    [.str "x".data, .str "y".data]
    (by decide) (by decide) (by decide) rfl rfl

/-- C2: an input whose encoding contains no `&`, no `|`, and no match of
the field-op-value regex parses to a full-text `Or` group holding
exactly one `Like` leaf per textual (`String`/`Text`) column of the
registry, in registry order, each leaf carrying the decoded input;
non-textual columns contribute no leaf. -/
theorem c2_fulltext_one_like_per_textual_column :
    ∀ (P : ExtParse) (columns : Columns) (s : Str),
      containsChar '&' (encode s) = false →
      containsChar '|' (encode s) = false →
      matchFilterRegex (encode s) = none →
      Filter.parse P columns s =
        .ok (.Composite
          (columns.columns.filterMap (fun c =>
            if isTextual c.2 then some (Filter.Simple c.1 (.str (decode (encode s))) .Like)
            else none))
          .Or)
      ∧ (columns.columns.filterMap (fun c =>
            if isTextual c.2 then some (Filter.Simple c.1 (.str (decode (encode s))) .Like)
            else none)).length =
          (columns.columns.filter (fun c => isTextual c.2)).length := by
  intro P columns s hamp hbar hm
  constructor
  · rw [parse_on_amp_free hamp, parseClause_fulltext hm,
      splitOnChar_of_not_contains hbar]
    have : flat_map
        (fun a => columns.columns.filterMap
          (fun c =>
            match c.2 with
            | .String _ | .Text => some (Filter.Simple c.1 (.str (decode a)) .Like)
            | _ => none))
        [encode s] =
        columns.columns.filterMap
          (fun c =>
            match c.2 with
            | .String _ | .Text => some (Filter.Simple c.1 (.str (decode (encode s))) .Like)
            | _ => none) := by
      simp [flat_map]
    rw [this]
    have hfun : (fun (c : ColumnRef × ColumnType) =>
        match c.2 with
        | ColumnType.String _ | ColumnType.Text =>
            some (Filter.Simple c.1 (.str (decode (encode s))) .Like)
        | _ => none) =
        (fun c =>
          if isTextual c.2 then some (Filter.Simple c.1 (.str (decode (encode s))) .Like)
          else none) := by
      funext c
      rcases c with ⟨cr, ct⟩
      cases ct <;> rfl
    rw [hfun]
  · apply length_filterMap_eq_length_filter
    intro c _
    by_cases h : isTextual c.2 = true <;> simp [h]

theorem c2_fulltext_witness :
    Filter.parse P0 advisoryColumns "hello world".data =
      .ok (.Composite
        [.Simple "location".data (.str "hello world".data) .Like,
         .Simple "title".data (.str "hello world".data) .Like] .Or) :=
  (c2_fulltext_one_like_per_textual_column P0 advisoryColumns "hello world".data
    (by decide) (by decide) (by decide)).1

/-- C10: an input without an unescaped `&` whose leading segment before
the first operator character is empty or contains a non-word character
fails the anchored field-op-value regex, and such an input is not a
parse error: `Filter::parse` silently treats it as a full-text query —
so `=foo`, `foo bar=baz` and `foo-bar=baz` all produce full-text `Like`
groups over the textual columns even though they contain `=`. -/
theorem c10_nonmatching_clause_is_fulltext :
    (∀ (P : ExtParse) (columns : Columns) (s : Str),
      containsChar '&' (encode s) = false →
      matchFilterRegex (encode s) = none →
      Filter.parse P columns s =
        .ok (.Composite
          (flat_map
            (fun a => columns.columns.filterMap
              (fun c =>
                match c.2 with
                | .String _ | .Text => some (.Simple c.1 (.str (decode a)) .Like)
                | _ => none))
            (splitOnChar '|' (encode s)))
          .Or))
    ∧ (∀ t : Str,
        (t.takeWhile (fun c => isOpChar c = false) = [] ∨
          ∃ c ∈ t.takeWhile (fun c => isOpChar c = false), isWordChar c = false) →
        matchFilterRegex t = none)
    ∧ Filter.parse P0 advisoryColumns "=foo".data =
        .ok (.Composite
          [.Simple "location".data (.str "=foo".data) .Like,
           .Simple "title".data (.str "=foo".data) .Like] .Or)
    ∧ Filter.parse P0 advisoryColumns "foo bar=baz".data =
        .ok (.Composite
          [.Simple "location".data (.str "foo bar=baz".data) .Like,
           .Simple "title".data (.str "foo bar=baz".data) .Like] .Or)
    ∧ Filter.parse P0 advisoryColumns "foo-bar=baz".data =
        .ok (.Composite
          [.Simple "location".data (.str "foo-bar=baz".data) .Like,
           .Simple "title".data (.str "foo-bar=baz".data) .Like] .Or) := by
  refine ⟨?_, fun t h => matchFilterRegex_none_of_bad_segment h, rfl, rfl, rfl⟩
  intro P columns s hamp hm
  rw [parse_on_amp_free hamp]
  exact parseClause_fulltext hm

theorem c10_nonmatching_clause_witness :
    matchFilterRegex "foo-bar=baz".data = none
    ∧ Filter.parse P0 advisoryColumns "=foo".data =
        .ok (.Composite
          [.Simple "location".data (.str "=foo".data) .Like,
           .Simple "title".data (.str "=foo".data) .Like] .Or) :=
  ⟨c10_nonmatching_clause_is_fulltext.2.1 "foo-bar=baz".data
      (Or.inr ⟨'-', by decide, by decide⟩),
    c10_nonmatching_clause_is_fulltext.1 P0 advisoryColumns "=foo".data
      (by decide) (by decide)⟩

/-- C4: lowering a `Composite` folds its children with the node's
operator from that operator's identity — `And` folds conjunctively from
`true`, `Or` disjunctively from `false` — so an empty `And` composite
lowers to an always-true predicate and an empty `Or` composite to an
always-false one; full-text parsing against a registry with no textual
columns yields the empty `Or` group, whose lowered predicate matches no
row. -/
theorem c4_composite_fold_identities :
    (∀ (ρ : ColumnRef → BinOper → Value → Bool) (ι : ColumnRef → Str → Bool)
       (cs : List Condition),
      Condition.eval ρ ι (.all cs) = cs.foldl (fun acc c => acc && c.eval ρ ι) true
      ∧ Condition.eval ρ ι (.any cs) = cs.foldl (fun acc c => acc || c.eval ρ ι) false)
    ∧ (Filter.into_condition (.Composite [] .And) = .ok (.all [])
      ∧ ∀ (ρ : ColumnRef → BinOper → Value → Bool) (ι : ColumnRef → Str → Bool),
          Condition.eval ρ ι (.all []) = true)
    ∧ (Filter.into_condition (.Composite [] .Or) = .ok (.any [])
      ∧ ∀ (ρ : ColumnRef → BinOper → Value → Bool) (ι : ColumnRef → Str → Bool),
          Condition.eval ρ ι (.any []) = false)
    ∧ (∀ (P : ExtParse) (columns : Columns) (s : Str),
        (∀ c ∈ columns.columns, isTextual c.2 = false) →
        containsChar '&' (encode s) = false →
        matchFilterRegex (encode s) = none →
        Filter.parse P columns s = .ok (.Composite [] .Or)
        ∧ Filter.into_condition (.Composite [] .Or) = .ok (.any [])
        ∧ ∀ (ρ : ColumnRef → BinOper → Value → Bool) (ι : ColumnRef → Str → Bool),
            Condition.eval ρ ι (.any []) = false) := by
  refine ⟨?_, ⟨rfl, fun ρ ι => rfl⟩, ⟨rfl, fun ρ ι => rfl⟩, ?_⟩
  · intro ρ ι cs
    constructor
    · rw [foldl_and_evalList]
      simp only [Bool.true_and]
      rfl
    · rw [foldl_or_evalAnyList]
      simp only [Bool.false_or]
      rfl
  · intro P columns s htex hamp hm
    refine ⟨?_, rfl, fun ρ ι => rfl⟩
    rw [parse_on_amp_free hamp, parseClause_fulltext hm]
    have hone : ∀ a : Str, columns.columns.filterMap
        (fun c =>
          match c.2 with
          | ColumnType.String _ | ColumnType.Text =>
              some (Filter.Simple c.1 (.str (decode a)) Operator.Like)
          | _ => none) = [] := by
      intro a
      rw [List.filterMap_eq_nil_iff]
      intro c hc
      have := htex c hc
      rcases c with ⟨cr, ct⟩
      cases ct <;> first
        | rfl
        | exact absurd this (by simp [isTextual])
    rw [flat_map_eq_nil (fun a _ => hone a)]

theorem c4_composite_fold_witness :
    Filter.parse P0 (Columns.mk [("id".data, ColumnType.Integer)]) "foo".data =
      .ok (.Composite [] .Or)
    ∧ Condition.eval (fun _ _ _ => true) (fun _ _ => true) (.any []) = false :=
  have h := c4_composite_fold_identities.2.2.2 P0
    (Columns.mk [("id".data, ColumnType.Integer)]) "foo".data
    (by decide) (by decide) (by decide)
  ⟨h.1, h.2.2 _ _⟩

/-- C8: a clause that matches the field-op-value regex but whose field
does not resolve in the registry makes `Filter::parse` return a
`SearchSyntax` error naming the field — never a silent full-text
fallback — and parsing is atomic: a parsed tree implies every `&`-split
clause parsed, and any failing clause fails the whole query. -/
theorem c8_unresolved_field_atomic_error :
    (∀ (P : ExtParse) (columns : Columns) (s field op value : Str),
      containsChar '&' (encode s) = false →
      matchFilterRegex (encode s) = some (field, op, value) →
      columns.for_field field = none →
      Filter.parse P columns s =
        .error (.SearchSyntax
          ("Invalid field name for filter: '".data ++ field ++ "'".data)))
    ∧ (∀ (P : ExtParse) (columns : Columns) (s : Str) (f : Filter),
      containsChar '&' (encode s) = true →
      Filter.parse P columns s = .ok f →
      ∀ e ∈ splitOnChar '&' (encode s), ∃ fe, Filter.parse P columns e = .ok fe)
    ∧ (∀ (P : ExtParse) (columns : Columns) (s e : Str) (err : Error),
      containsChar '&' (encode s) = true →
      e ∈ splitOnChar '&' (encode s) →
      Filter.parse P columns e = .error err →
      ∃ err', Filter.parse P columns s = .error err') := by
  refine ⟨?_, ?_, ?_⟩
  · intro P columns s field op value hamp hm hff
    rw [parse_on_amp_free hamp]
    exact parseClause_field_error hm hff
  · intro P columns s f hamp h e he
    have hfree : containsChar '&' (encode e) = false :=
      encode_amp_free (mem_splitOnChar_not_contains '&' (encode s) e he)
    rw [parse_on_amp_free hfree]
    simp only [Filter.parse, hamp, if_true] at h
    split at h
    · exact absurd h (by simp)
    · rename_i fs hcr
      exact collectResults_ok_mem hcr e he
  · intro P columns s e err hamp he herr
    have hfree : containsChar '&' (encode e) = false :=
      encode_amp_free (mem_splitOnChar_not_contains '&' (encode s) e he)
    rw [parse_on_amp_free hfree] at herr
    rcases collectResults_error_of_mem he herr with ⟨err', herr'⟩
    refine ⟨err', ?_⟩
    simp only [Filter.parse, hamp, if_true, herr']

theorem c8_unresolved_field_witness :
    Filter.parse P0 advisoryColumns "foo=bar".data =
      .error (.SearchSyntax "Invalid field name for filter: 'foo'".data)
    ∧ ∃ err', Filter.parse P0 advisoryColumns "location=a&foo=bar".data = .error err' :=
  ⟨c8_unresolved_field_atomic_error.1 P0 advisoryColumns "foo=bar".data
      "foo".data "=".data "bar".data (by decide) (by decide) (by decide),
    c8_unresolved_field_atomic_error.2.2 P0 advisoryColumns
      "location=a&foo=bar".data "foo=bar".data
      (.SearchSyntax "Invalid field name for filter: 'foo'".data)
      (by decide) (by decide)
      (c8_unresolved_field_atomic_error.1 P0 advisoryColumns "foo=bar".data
        "foo".data "=".data "bar".data (by decide) (by decide) (by decide))⟩

/-- C9: every tree produced by `Filter::parse` is structurally
well-formed — `Composite` nodes carry `And`/`Or`, `Simple` leaves carry
one of the eight comparison operators — and lowering a well-formed tree
never reaches either `unreachable!()` arm of `into_condition`. -/
theorem c9_parse_trees_well_formed :
    (∀ (P : ExtParse) (columns : Columns) (s : Str) (f : Filter),
      Filter.parse P columns s = .ok f → f.wellFormed = true)
    ∧ (∀ f : Filter, f.wellFormed = true → f.into_condition ≠ .error .Unreachable) :=
  ⟨fun _ _ _ _ h => parse_wellFormed h, wellFormed_no_unreachable⟩

theorem c9_parse_trees_well_formed_witness :
    Filter.wellFormed
      (.Composite [.Simple "location".data (.str "foo".data) .Equal] .Or) = true
    ∧ Filter.into_condition
        (.Composite [.Simple "location".data (.str "foo".data) .Equal] .Or) ≠
        .error .Unreachable :=
  have h1 := c9_parse_trees_well_formed.1 P0 advisoryColumns "location=foo".data
    (.Composite [.Simple "location".data (.str "foo".data) .Equal] .Or) rfl
  ⟨h1, c9_parse_trees_well_formed.2 _ h1⟩

/-- C7: `Sort::parse` lower-cases the whole token before splitting on
`:`, so direction keyword and field name are case-insensitive —
`Location:Desc` and `location:desc` give identical results on the test
registry; the accepted shapes are exactly `field` (ascending),
`field:asc` and `field:desc` with a resolvable field, and every other
shape (extra colons, unknown or empty direction, empty or unresolvable
field) is a `SearchSyntax` error. -/
theorem c7_sort_case_insensitive_shapes :
    (SortSpec.parse "Location:Desc".data advisoryColumns = .ok ⟨"location".data, .Desc⟩
      ∧ SortSpec.parse "location:desc".data advisoryColumns = .ok ⟨"location".data, .Desc⟩)
    ∧ (SortSpec.parse "location".data advisoryColumns = .ok ⟨"location".data, .Asc⟩
      ∧ SortSpec.parse "Location:Asc".data advisoryColumns = .ok ⟨"location".data, .Asc⟩)
    ∧ (∀ (columns : Columns) (s : Str),
        (∃ r, SortSpec.parse s columns = .ok r) ↔
          ((containsChar ':' (toLowerStr s) = false
              ∧ (columns.for_field (toLowerStr s)).isSome = true)
            ∨ ∃ f, (toLowerStr s = f ++ ':' :: "asc".data
                  ∨ toLowerStr s = f ++ ':' :: "desc".data)
                ∧ containsChar ':' f = false
                ∧ (columns.for_field f).isSome = true))
    ∧ SortSpec.parse "location:asc:foo".data advisoryColumns =
        .error (.SearchSyntax "Invalid sort: 'location:asc:foo'".data)
    ∧ SortSpec.parse "location:bogus".data advisoryColumns =
        .error (.SearchSyntax "Invalid sort: 'location:bogus'".data)
    ∧ SortSpec.parse "location:".data advisoryColumns =
        .error (.SearchSyntax "Invalid sort: 'location:'".data)
    ∧ SortSpec.parse ":foo".data advisoryColumns =
        .error (.SearchSyntax "Invalid sort: ':foo'".data)
    ∧ SortSpec.parse "".data advisoryColumns =
        .error (.SearchSyntax "Invalid field name for sort: ''".data) := by
  refine ⟨⟨rfl, rfl⟩, ⟨rfl, rfl⟩, ?_, rfl, rfl, rfl, rfl, rfl⟩
  intro columns s
  constructor
  · rintro ⟨r, hr⟩
    simp only [SortSpec.parse] at hr
    split at hr
    · exact absurd hr (by simp)
    · rename_i f ord hp
      split at hr
      · exact absurd hr (by simp)
      · rename_i c hc
        split at hp
        · -- splitOnChar ':' t = [f', o]
          rename_i f' o hsp
          split at hp
          · -- o = "asc"
            rename_i hasc
            rw [Option.some.injEq, Prod.mk.injEq] at hp
            obtain ⟨hf, -⟩ := hp
            rcases splitOnChar_pair_iff.mp hsp with ⟨hshape, hncf, -⟩
            refine Or.inr ⟨f', Or.inl (by rw [hshape, hasc]), hncf, ?_⟩
            rw [hf, hc]
            rfl
          · split at hp
            · -- o = "desc"
              rename_i hdesc
              rw [Option.some.injEq, Prod.mk.injEq] at hp
              obtain ⟨hf, -⟩ := hp
              rcases splitOnChar_pair_iff.mp hsp with ⟨hshape, hncf, -⟩
              refine Or.inr ⟨f', Or.inr (by rw [hshape, hdesc]), hncf, ?_⟩
              rw [hf, hc]
              rfl
            · exact absurd hp (by simp)
        · -- splitOnChar ':' t = [f']
          rename_i f' hsp
          rw [Option.some.injEq, Prod.mk.injEq] at hp
          obtain ⟨hf, -⟩ := hp
          rcases splitOnChar_single_iff.mp hsp with ⟨hshape, hncf⟩
          refine Or.inl ⟨by rw [hshape]; exact hncf, ?_⟩
          rw [hshape, hf, hc]
          rfl
        · exact absurd hp (by simp)
  · intro h
    rcases h with ⟨hnc, hsome⟩ | ⟨f, hshape, hncf, hsome⟩
    · rcases hc : columns.for_field (toLowerStr s) with _ | c
      · rw [hc] at hsome
        simp at hsome
      · exact ⟨⟨c.1, .Asc⟩, by simp [SortSpec.parse, splitOnChar_of_not_contains hnc, hc]⟩
    · rcases hc : columns.for_field f with _ | c
      · rw [hc] at hsome
        simp at hsome
      · rcases hshape with hshape | hshape
        · have hsp : splitOnChar ':' (toLowerStr s) = [f, "asc".data] :=
            splitOnChar_pair_iff.mpr ⟨hshape, hncf, by decide⟩
          exact ⟨⟨c.1, .Asc⟩, by simp [SortSpec.parse, hsp, hc]⟩
        · have hsp : splitOnChar ':' (toLowerStr s) = [f, "desc".data] :=
            splitOnChar_pair_iff.mpr ⟨hshape, hncf, by decide⟩
          have hne : ¬("desc".data = "asc".data) := by decide
          exact ⟨⟨c.1, .Desc⟩, by simp [SortSpec.parse, hsp, hne, hc]⟩

theorem c7_sort_case_insensitive_shapes_witness :
    ∃ r, SortSpec.parse "TITLE:DESC".data advisoryColumns = .ok r :=
  (c7_sort_case_insensitive_shapes.2.2.1 advisoryColumns "TITLE:DESC".data).mpr
    (Or.inr ⟨"title".data, Or.inr (by decide), by decide, by decide⟩)

end TrustifyQuery

